import Mathlib

/-!
Verification of the duplicate-file detection engine of Chuns-Random-Utilities.

The Python source (`main.py`, `ui.py`) is shallowly embedded:

* a regular file on disk is modelled by `FSFile`: its name, its byte content,
  and two flags saying whether `os.path.getsize` succeeds (`statOk`) and
  whether `open`/`read` succeeds (`readOk`) — the only failure modes the
  source catches (`OSError`, `PermissionError`);
* the filesystem walk (`os.walk`) is modelled as the list of visited
  directories in walk order, each paired with the list of files directly
  inside it;
* the md5 hex digest is kept abstract as a parameter `h : Bytes → String`
  applied to the exact byte sequence the source feeds to `md5.update`;
  the source caches the empty string `""` as its failure sentinel, and a
  real 32-character hex digest is never empty, so `""` keeps that role here;
* `int((processed / total) * 50)` is modelled by the exact natural division
  `(processed * 50) / total`; the properties proved about it (boundedness by
  50 and monotonicity in `processed`) hold for the floating-point original
  as well;
* Python dicts preserve insertion order, so `defaultdict(list)` is modelled
  by an ordered association list: `alistAppend` mirrors `d[key].append(x)`.
-/

/-- Byte sequences (file contents). -/
abbrev Bytes := List Nat

/-- One regular file as the filesystem presents it to the scanner. -/
structure FSFile where
  name : String
  content : Bytes
  statOk : Bool
  readOk : Bool
deriving DecidableEq, Repr

/-- `FileInfo.CHUNK_SIZE` (main.py line 331). -/
def CHUNK_SIZE : Nat := 8192

/-- `FileInfo.MAX_QUICK_READ_SIZE` (main.py line 332): 1 MiB cap for the quick hash. -/
def MAX_QUICK_READ_SIZE : Nat := 1024 * 1024

/-- The read loop of `FileInfo.full_hash` (main.py lines 377-379):
`while chunk := f.read(self.CHUNK_SIZE): md5.update(chunk)`.
`md` accumulates the bytes fed to `md5.update`, `rest` is the unread part of
the file.  The `fuel` argument only bounds the iteration count so that the
recursion is structural; every iteration consumes at least one byte or stops,
so `rest.length + 1` fuel is enough (see `fullReadAux_spec`). -/
def fullReadAux : Nat → Bytes → Bytes → Bytes
  | 0, md, _ => md
  | fuel + 1, md, rest =>
    let chunk := rest.take CHUNK_SIZE
    if chunk.isEmpty then md
    else fullReadAux fuel (md ++ chunk) (rest.drop chunk.length)

/-- Bytes hashed by `FileInfo.full_hash` on a file with content `c`. -/
def fullReadBytes (c : Bytes) : Bytes := fullReadAux (c.length + 1) [] c

/-- The read loop of `FileInfo.quick_hash` (main.py lines 357-365):
reads `min(CHUNK_SIZE, MAX_QUICK_READ_SIZE - bytes_read)` at a time while
`bytes_read < MAX_QUICK_READ_SIZE`, stopping at end of file.  As in
`fullReadAux`, `fuel` only makes the recursion structural. -/
def quickReadAux : Nat → Bytes → Bytes → Nat → Bytes
  | 0, md, _, _ => md
  | fuel + 1, md, rest, bytesRead =>
    if bytesRead < MAX_QUICK_READ_SIZE then
      let chunk := rest.take (min CHUNK_SIZE (MAX_QUICK_READ_SIZE - bytesRead))
      if chunk.isEmpty then md
      else quickReadAux fuel (md ++ chunk) (rest.drop chunk.length) (bytesRead + chunk.length)
    else md

/-- Bytes hashed by `FileInfo.quick_hash` on a file with content `c`. -/
def quickReadBytes (c : Bytes) : Bytes := quickReadAux (c.length + 1) [] c 0

/-- `FileInfo.size` (main.py lines 340-349) as a function of the file:
`os.path.getsize` on success, the cached sentinel `0` on `OSError` /
`PermissionError`. -/
def fileSize (f : FSFile) : Nat := if f.statOk then f.content.length else 0

/-- `FileInfo.full_hash` (main.py lines 372-384) as a function of the file:
md5 hex digest of the whole content on success, sentinel `""` on failure. -/
def full_hash_of (h : Bytes → String) (f : FSFile) : String :=
  if f.readOk then h (fullReadBytes f.content) else ""

/-- `FileInfo.quick_hash` (main.py lines 351-370) as a function of the file:
md5 hex digest of at most the first 1 MiB on success, `""` on failure. -/
def quick_hash_of (h : Bytes → String) (f : FSFile) : String :=
  if f.readOk then h (quickReadBytes f.content) else ""

/-- Cached fields `_size`, `_quick_hash`, `_full_hash` of one `FileInfo`
record (main.py lines 334-338); `none` means "not yet computed". -/
structure FileInfoCache where
  csize : Option Nat
  cquick : Option String
  cfull : Option String
deriving DecidableEq, Repr

/-- A freshly constructed `FileInfo`: nothing cached yet. -/
def emptyCache : FileInfoCache := ⟨none, none, none⟩

/-- The stateful `FileInfo.size` property (main.py lines 340-349).  `f` is
what the filesystem answers at access time; returns the value and the
updated cache.  The source catches every `OSError`/`PermissionError`, so the
accessor is total. -/
def size_access (f : FSFile) (st : FileInfoCache) : Nat × FileInfoCache :=
  match st.csize with
  | some s => (s, st)
  | none =>
    if f.statOk then (f.content.length, { st with csize := some f.content.length })
    else (0, { st with csize := some 0 })

/-- The stateful `FileInfo.quick_hash` property (main.py lines 351-370). -/
def quick_hash_access (h : Bytes → String) (f : FSFile) (st : FileInfoCache) :
    String × FileInfoCache :=
  match st.cquick with
  | some s => (s, st)
  | none =>
    if f.readOk then
      (h (quickReadBytes f.content), { st with cquick := some (h (quickReadBytes f.content)) })
    else ("", { st with cquick := some "" })

/-- The stateful `FileInfo.full_hash` method (main.py lines 372-384). -/
def full_hash_access (h : Bytes → String) (f : FSFile) (st : FileInfoCache) :
    String × FileInfoCache :=
  match st.cfull with
  | some s => (s, st)
  | none =>
    if f.readOk then
      (h (fullReadBytes f.content), { st with cfull := some (h (fullReadBytes f.content)) })
    else ("", { st with cfull := some "" })

/-- ASCII model of the whitespace class `\s` of Python's `re` and of
`str.strip` (the filenames the claims concern are ASCII). -/
def pyIsSpace (c : Char) : Bool :=
  c = ' ' || c = '\t' || c = '\n' || c = '\r' || c = '\x0b' || c = '\x0c'

/-- The decimal-digit class `\d` (ASCII). -/
def pyIsDigit (c : Char) : Bool := '0' ≤ c && c ≤ '9'

/-- Index of the last `'.'` in a filename (`str.rfind('.')`), if any. -/
def rfindDot (s : List Char) : Option Nat :=
  match s.reverse.findIdx? (· = '.') with
  | none => none
  | some j => some (s.length - 1 - j)

/-- `os.path.splitext` on a bare filename (no path separators): split at the
last dot, except that a run of leading dots never starts an extension
(`genericpath._splitext`). -/
def splitext (s : List Char) : List Char × List Char :=
  match rfindDot s with
  | none => (s, [])
  | some d => if (s.take d).any (· ≠ '.') then (s.take d, s.drop d) else (s, [])

/-- The literal part of the pattern `^(copy of\s+)` (main.py line 429). -/
def copyOfChars : List Char := ['c', 'o', 'p', 'y', ' ', 'o', 'f']

/-- Does the list start with a whitespace character? -/
def startsWithSpace : List Char → Bool
  | [] => false
  | c :: _ => pyIsSpace c

/-- `re.sub(r'^(copy of\s+)', '', basename)` (main.py line 429): remove a
leading literal `copy of` followed by a maximal non-empty whitespace run. -/
def stripCopyOf (s : List Char) : List Char :=
  if s.take 7 = copyOfChars ∧ startsWithSpace (s.drop 7) then
    (s.drop 7).dropWhile pyIsSpace
  else s

/-- `re.sub(r'\s*\(\d+\)\s*$', '', basename)` (main.py line 430): remove a
trailing parenthesized digit run together with the maximal whitespace runs
around it.  Implemented from the right end of the string; the pattern is
anchored at `$` so at most one match exists, and leftmost matching makes
both `\s*` runs maximal. -/
def stripNumSuffix (s : List Char) : List Char :=
  match s.reverse.dropWhile pyIsSpace with
  | ')' :: r2 =>
    match r2.takeWhile pyIsDigit, r2.dropWhile pyIsDigit with
    | [], _ => s
    | _ :: _, '(' :: r4 => (r4.dropWhile pyIsSpace).reverse
    | _ :: _, _ => s
  | _ => s

/-- Python `str.strip()`: trim whitespace from both ends. -/
def pyStrip (s : List Char) : List Char :=
  ((s.dropWhile pyIsSpace).reverse.dropWhile pyIsSpace).reverse

/-- `get_normalized_name` (main.py lines 420-431): lower-case, split off the
extension, strip the copy-artifact patterns from the stem, trim, and
re-attach the extension. -/
def get_normalized_name (filename : String) : String :=
  let lowered := filename.data.map Char.toLower
  let (basename, ext) := splitext lowered
  ⟨pyStrip (stripNumSuffix (stripCopyOf basename)) ++ ext⟩

/-- `d[key].append(x)` on a `defaultdict(list)`, with Python's
insertion-ordered iteration: an existing bucket grows at its end, a new key
goes to the back of the association list. -/
def alistAppend {κ α : Type} [DecidableEq κ] :
    List (κ × List α) → κ → α → List (κ × List α)
  | [], k, x => [(k, [x])]
  | (k', vs) :: rest, k, x =>
    if k = k' then (k', vs ++ [x]) :: rest else (k', vs) :: alistAppend rest k x

/-- Build a `defaultdict(list)` by appending every element of `l` under its
key, in order. -/
def bucketize {κ α : Type} [DecidableEq κ] (key : α → κ) (l : List α) :
    List (κ × List α) :=
  l.foldl (fun d x => alistAppend d (key x) x) []

/-- A `FileInfo` as the scan hands it to the grouper: the directory
(`os.walk` root) it was found in together with the file itself. -/
structure FI where
  dir : String
  file : FSFile
deriving DecidableEq, Repr

/-- `os.path.join(root, name)` (with the portable separator). -/
def FI.path (fi : FI) : String := fi.dir ++ "/" ++ fi.file.name

/-- One entry of the `duplicate_groups` list built by `find_duplicates`
(main.py lines 454-458).  The source stores `'paths': [f.path for f in
duplicates]`; the embedding keeps the member records themselves and projects
the paths with `DupGroup.paths`, so that invariants about the members can be
stated. -/
structure DupGroup where
  members : List FI
  size : Nat
  directory : String
deriving DecidableEq, Repr

/-- The `'paths'` field of the group dict: `[f.path for f in duplicates]`. -/
def DupGroup.paths (g : DupGroup) : List String := g.members.map FI.path

/-- `duplicates[0].size` (main.py line 456); the bucket is never empty when
read, the `[]` case is unreachable. -/
def headSize : List FI → Nat
  | [] => 0
  | f :: _ => fileSize f.file

/-- `find_duplicates` (main.py lines 433-460).  For each directory bucket:
group the files by normalized name; inside every name bucket of two or more,
group by full digest; every digest bucket of two or more becomes a group.
The function also receives `files_by_size` and `progress_callback` in the
source; the first is never read and the callback is never invoked, so the
second component of the result — the list of values the grouping stage
passes to the progress callback — is empty. -/
def find_duplicates (h : Bytes → String) (files_by_size : List (Nat × List FI))
    (files_by_directory : List (String × List FI)) : List DupGroup × List Nat :=
  let groups := files_by_directory.foldl (fun acc entry =>
    let name_dict := bucketize (fun fi => get_normalized_name fi.file.name) entry.2
    name_dict.foldl (fun acc2 nb =>
      if 1 < nb.2.length then
        let hash_dict := bucketize (fun fi => full_hash_of h fi.file) nb.2
        hash_dict.foldl (fun acc3 hb =>
          if 1 < hb.2.length then
            acc3 ++ [{ members := hb.2, size := headSize hb.2, directory := entry.1 }]
          else acc3) acc2
      else acc2) acc) []
  (groups, [])

/-- `sum(len(files) for _, _, files in os.walk(directory))`
(main.py line 392). -/
def totalFiles (fs : List (String × List FSFile)) : Nat :=
  (fs.map (fun e => e.2.length)).sum

/-- Mutable state of the `scan_directory` loop (main.py lines 388-416): the
two indices, the `processed_files` counter, and — in place of calls to
`progress_callback` — the list of progress values passed to it so far. -/
structure ScanState where
  files_by_size : List (Nat × List FI)
  files_by_directory : List (String × List FI)
  processed : Nat
  ems : List Nat
deriving DecidableEq, Repr

/-- Body of the inner loop of `scan_directory` (main.py lines 401-416) for
one file `f` found under walk root `dir`: index the file if its size is
positive, bump `processed_files`, and report `int(processed/total*50)` once
every `chunk` files. -/
def scanStep (total chunk : Nat) (st : ScanState) (dir : String) (f : FSFile) : ScanState :=
  let fi : FI := ⟨dir, f⟩
  let st1 :=
    if 0 < fileSize f then
      { st with
        files_by_size := alistAppend st.files_by_size (fileSize f) fi
        files_by_directory := alistAppend st.files_by_directory dir fi }
    else st
  let processed := st1.processed + 1
  let ems :=
    if processed % chunk = 0 then st1.ems ++ [processed * 50 / total] else st1.ems
  { st1 with processed := processed, ems := ems }

/-- `scan_directory` (main.py lines 386-418): count the files, return empty
indices immediately when there are none, otherwise walk every directory and
every file, reporting progress in the 0-50 range roughly every 1% of files.
Returns `files_by_size`, `files_by_directory` and the reported progress
values. -/
def scan_directory (fs : List (String × List FSFile)) :
    List (Nat × List FI) × List (String × List FI) × List Nat :=
  let total := totalFiles fs
  if total = 0 then ([], [], [])
  else
    let chunk := max 1 (total / 100)
    let final := fs.foldl
      (fun st e => e.2.foldl (fun st f => scanStep total chunk st e.1 f) st)
      ⟨[], [], 0, []⟩
    (final.files_by_size, final.files_by_directory, final.ems)

/-- `duplicate_file_finder` (main.py lines 636-661): report 0, run the scan
(phase 1, values 0-50), report 50, then run `find_duplicates` (phase 2,
which reports nothing).  Returns the duplicate groups and the full sequence
of values handed to the progress callback.  All callback invocations go
through `safe_progress_callback`, which catches every exception the
callback raises, so the run itself never aborts on a callback error. -/
def duplicate_file_finder (h : Bytes → String) (fs : List (String × List FSFile)) :
    List DupGroup × List Nat :=
  let scanned := scan_directory fs
  let found := find_duplicates h scanned.1 scanned.2.1
  (found.1, [0] ++ scanned.2.2 ++ [50] ++ found.2)

/-- Is the `DuplicateFinderThread._is_running` flag still true at checkpoint
`i`, when `stop()` was requested at checkpoint `cancelAt` (`none` = never)? -/
def runningAfter : Option Nat → Nat → Bool
  | none, _ => true
  | some k, n => decide (n < k)

/-- `DuplicateFinderThread.run` (ui.py lines 216-248) on a directory tree
`fs`, with `stop()` arriving at checkpoint `cancelAt`.  Checkpoints `0` to
`n-1` are the `n` progress-callback invocations of the scan and checkpoint
`n` is the final `if self._is_running` test before the results are emitted.
At a callback invocation with the flag down, the callback raises
`InterruptedError` before emitting, so that value is not delivered — but
`safe_progress_callback` inside `duplicate_file_finder` swallows the
exception and the scan continues.  Returns the progress values delivered to
`progress_updated` and the payload of the `duplicates_found` emission, if
one happens. -/
def threadRun (h : Bytes → String) (fs : List (String × List FSFile))
    (cancelAt : Option Nat) : List Nat × Option (List DupGroup) :=
  let r := duplicate_file_finder h fs
  let delivered := match cancelAt with
    | none => r.2
    | some k => r.2.take k
  let result := if runningAfter cancelAt r.2.length then some r.1 else none
  (delivered, result)

/-- `wasted_space = group['size'] * (len(group['paths']) - 1)`
(ui.py line 904). -/
def group_wasted_space (g : DupGroup) : Nat := g.size * (g.paths.length - 1)

/-- The `total_wasted_space` accumulation of `display_duplicates`
(ui.py lines 878-905): start at 0 and add every group's wasted space. -/
def display_total_wasted (duplicates : List DupGroup) : Nat :=
  duplicates.foldl (fun total g => total + group_wasted_space g) 0

/-- A concrete stand-in digest function for witnesses and counterexamples:
the digest of `b` is a string of `b.length` letters (enough to separate the
concrete contents used below). -/
def constLenHash : Bytes → String := fun b => ⟨List.replicate b.length 'a'⟩

/-- All values stored in an association list, in iteration order. -/
def bucketsJoin {κ α : Type} (d : List (κ × List α)) : List α :=
  d.flatMap (fun p => p.2)

/-- Groups contributed by one digest bucket `hb` of `find_duplicates`
(main.py lines 452-458): one group when the bucket has two or more members,
none otherwise. -/
def gHash (dir : String) (hb : String × List FI) : List DupGroup :=
  if 1 < hb.2.length then
    [{ members := hb.2, size := headSize hb.2, directory := dir }]
  else []

/-- Groups contributed by one name bucket `nb` of `find_duplicates`
(main.py lines 445-458). -/
def gName (h : Bytes → String) (dir : String) (nb : String × List FI) : List DupGroup :=
  if 1 < nb.2.length then
    (bucketize (fun fi => full_hash_of h fi.file) nb.2).flatMap (gHash dir)
  else []

/-- Groups contributed by one directory entry of `find_duplicates`
(main.py lines 438-458). -/
def gDir (h : Bytes → String) (e : String × List FI) : List DupGroup :=
  (bucketize (fun fi => get_normalized_name fi.file.name) e.2).flatMap (gName h e.1)

/-- `scanStep` uncurried over a (walk root, file) pair. -/
def pairStep (total chunk : Nat) (st : ScanState) (p : String × FSFile) : ScanState :=
  scanStep total chunk st p.1 p.2

/-- The walk as a flat stream of (directory, file) pairs, in visit order. -/
def flatPairs (fs : List (String × List FSFile)) : List (String × FSFile) :=
  fs.flatMap (fun e => e.2.map (fun f => (e.1, f)))

/-- The `FileInfo` records that `scan_directory` indexes: one per walked
file whose size is positive, in discovery order. -/
def scanFIs (fs : List (String × List FSFile)) : List FI :=
  ((flatPairs fs).map (fun p => FI.mk p.1 p.2)).filter (fun fi => 0 < fileSize fi.file)

/-- The update `files_by_directory[root].append(file_info)` performed (or
skipped, for size 0) by one scan step, in isolation. -/
def bdStep (bd : List (String × List FI)) (p : String × FSFile) : List (String × List FI) :=
  if 0 < fileSize p.2 then alistAppend bd p.1 ⟨p.1, p.2⟩ else bd


/-- Witness fixture: a readable `report.pdf` with three bytes of content. -/
def wf1 : FSFile := ⟨"report.pdf", [1, 2, 3], true, true⟩

/-- Witness fixture: a readable `copy of report.pdf` with the same content. -/
def wf2 : FSFile := ⟨"copy of report.pdf", [1, 2, 3], true, true⟩

/-- Witness fixture: one directory holding the two identical copies. -/
def wfs0 : List (String × List FSFile) := [("d", [wf1, wf2])]

/-- The one duplicate group the scan of `wfs0` reports. -/
def wgroup : DupGroup :=
  { members := [⟨"d", wf1⟩, ⟨"d", wf2⟩], size := 3, directory := "d" }

/-- Counterexample fixture: `report.pdf`, five bytes, stats fine but cannot
be opened for reading. -/
def bf1 : FSFile := ⟨"report.pdf", [1, 2, 3, 4, 5], true, false⟩

/-- Counterexample fixture: `report (1).pdf`, two bytes, also unreadable. -/
def bf2 : FSFile := ⟨"report (1).pdf", [1, 2], true, false⟩

/-- One directory holding the two unreadable files of different sizes. -/
def bfs : List (String × List FSFile) := [("d", [bf1, bf2])]

/-- One directory holding a single readable one-byte file. -/
def wsingle : List (String × List FSFile) := [("d", [⟨"a.txt", [1], true, true⟩])]
/-- Taking a prefix and then dropping as many elements as were actually
taken reassembles the list. -/
theorem take_append_drop_len {α : Type} (n : Nat) (l : List α) :
    l.take n ++ l.drop ((l.take n).length) = l := by
  rw [List.length_take]
  rcases le_total n l.length with hle | hle
  · rw [min_eq_left hle, List.take_append_drop]
  · rw [min_eq_right hle, List.take_of_length_le hle, List.drop_length, List.append_nil]

/-- With enough fuel, the `full_hash` read loop feeds exactly the whole
remaining content to the digest. -/
theorem fullReadAux_spec :
    ∀ (fuel : Nat) (md rest : Bytes), rest.length < fuel →
      fullReadAux fuel md rest = md ++ rest := by
  intro fuel
  induction fuel with
  | zero => intro md rest hlt; omega
  | succ fuel ih =>
    intro md rest hlt
    rw [fullReadAux]
    by_cases hc : (rest.take CHUNK_SIZE).isEmpty
    · have hrest : rest = [] := by
        rcases rest with _ | ⟨a, rest⟩
        · rfl
        · simp [CHUNK_SIZE] at hc
      simp [hc, hrest]
    · rw [if_neg hc]
      have hne : rest ≠ [] := by
        intro hr
        simp [hr] at hc
      have hkpos : 0 < (rest.take CHUNK_SIZE).length := by
        rw [List.length_take]
        rcases rest with _ | ⟨a, rest⟩
        · exact absurd rfl hne
        · simp [CHUNK_SIZE]
      have hkle : (rest.take CHUNK_SIZE).length ≤ rest.length := by
        rw [List.length_take]
        omega
      have hdlen : (rest.drop (rest.take CHUNK_SIZE).length).length < fuel := by
        rw [List.length_drop]
        omega
      rw [ih _ _ hdlen, List.append_assoc, take_append_drop_len]

/-- `FileInfo.full_hash` digests exactly the file content: chunking at
`CHUNK_SIZE` does not change the hashed byte sequence. -/
theorem fullReadBytes_eq (c : Bytes) : fullReadBytes c = c := by
  rw [fullReadBytes, fullReadAux_spec _ _ _ (Nat.lt_succ_self _), List.nil_append]

/-- With enough fuel, the `quick_hash` read loop feeds exactly the first
`MAX_QUICK_READ_SIZE - bytesRead` remaining bytes to the digest. -/
theorem quickReadAux_spec :
    ∀ (fuel : Nat) (md rest : Bytes) (br : Nat), rest.length < fuel →
      quickReadAux fuel md rest br = md ++ rest.take (MAX_QUICK_READ_SIZE - br) := by
  intro fuel
  induction fuel with
  | zero => intro md rest br hlt; omega
  | succ fuel ih =>
    intro md rest br hlt
    rw [quickReadAux]
    by_cases hbr : br < MAX_QUICK_READ_SIZE
    · rw [if_pos hbr]
      by_cases hc : (rest.take (min CHUNK_SIZE (MAX_QUICK_READ_SIZE - br))).isEmpty
      · have hm : 0 < min CHUNK_SIZE (MAX_QUICK_READ_SIZE - br) := by
          simp [CHUNK_SIZE]
          omega
        have hrest : rest = [] := by
          rcases rest with _ | ⟨a, rest⟩
          · rfl
          · rcases Nat.exists_eq_add_of_lt hm with ⟨m, hmeq⟩
            rw [hmeq] at hc
            simp [Nat.add_comm] at hc
        simp [hc, hrest]
      · rw [if_neg hc]
        have hne : rest ≠ [] := by
          intro hr
          simp [hr] at hc
        have hkle : (rest.take (min CHUNK_SIZE (MAX_QUICK_READ_SIZE - br))).length ≤ rest.length := by
          rw [List.length_take]
          omega
        have hkpos : 0 < (rest.take (min CHUNK_SIZE (MAX_QUICK_READ_SIZE - br))).length := by
          rw [List.length_take]
          rcases rest with _ | ⟨a, rest⟩
          · exact absurd rfl hne
          · simp [CHUNK_SIZE]
            omega
        have hdlen : (rest.drop (rest.take (min CHUNK_SIZE (MAX_QUICK_READ_SIZE - br))).length).length < fuel := by
          rw [List.length_drop]
          omega
        have hmle : min CHUNK_SIZE (MAX_QUICK_READ_SIZE - br) ≤ MAX_QUICK_READ_SIZE - br :=
          min_le_right _ _
        rw [ih _ _ _ hdlen, List.append_assoc]
        congr 1
        rcases le_total rest.length (min CHUNK_SIZE (MAX_QUICK_READ_SIZE - br)) with hle | hle
        · rw [List.take_of_length_le hle, List.drop_length, List.take_nil, List.append_nil]
          exact (List.take_of_length_le (le_trans hle hmle)).symm
        · rw [List.length_take, min_eq_left hle, ← Nat.sub_sub, ← List.take_add]
          congr 1
          omega
    · rw [if_neg hbr]
      have hz : MAX_QUICK_READ_SIZE - br = 0 := by omega
      rw [hz, List.take_zero, List.append_nil]

/-- `FileInfo.quick_hash` digests exactly the first 1 MiB of content. -/
theorem quickReadBytes_eq (c : Bytes) : quickReadBytes c = c.take MAX_QUICK_READ_SIZE := by
  rw [quickReadBytes, quickReadAux_spec _ _ _ _ (Nat.lt_succ_self _), List.nil_append,
    Nat.sub_zero]

/-- Appending one value into a `defaultdict(list)` adds exactly that value
to the multiset of stored values. -/
theorem alistAppend_join_perm {κ α : Type} [DecidableEq κ]
    (d : List (κ × List α)) (k : κ) (x : α) :
    (bucketsJoin (alistAppend d k x)).Perm (x :: bucketsJoin d) := by
  induction d with
  | nil => simp [alistAppend, bucketsJoin]
  | cons p rest ih =>
    rcases p with ⟨k', vs⟩
    rw [alistAppend]
    by_cases hk : k = k'
    · rw [if_pos hk]
      simp only [bucketsJoin, List.flatMap_cons, List.append_assoc]
      exact (List.perm_middle.trans (List.Perm.refl _))
    · rw [if_neg hk]
      simp only [bucketsJoin, List.flatMap_cons]
      exact (ih.append_left vs).trans List.perm_middle

/-- Folding a list into a `defaultdict(list)` stores exactly the folded
elements, up to bucket interleaving. -/
theorem bucketize_fold_join_perm {κ α : Type} [DecidableEq κ] (key : α → κ) :
    ∀ (l : List α) (d : List (κ × List α)),
      (bucketsJoin (l.foldl (fun d x => alistAppend d (key x) x) d)).Perm
        (bucketsJoin d ++ l) := by
  intro l
  induction l with
  | nil => intro d; simp
  | cons x l ih =>
    intro d
    rw [List.foldl_cons]
    refine (ih _).trans ?_
    exact ((alistAppend_join_perm d (key x) x).append_right l).trans List.perm_middle.symm

/-- The buckets of `bucketize key l` hold a permutation of `l`. -/
theorem bucketize_join_perm {κ α : Type} [DecidableEq κ] (key : α → κ) (l : List α) :
    (bucketsJoin (bucketize key l)).Perm l := by
  have := bucketize_fold_join_perm key l []
  simpa [bucketsJoin] using this

/-- A per-entry invariant of an association list survives one append whose
key-value pair satisfies it. -/
theorem alistAppend_forall {κ α : Type} [DecidableEq κ] (Q : κ → α → Prop)
    (d : List (κ × List α)) (k : κ) (x : α)
    (hd : ∀ p ∈ d, ∀ y ∈ p.2, Q p.1 y) (hx : Q k x) :
    ∀ p ∈ alistAppend d k x, ∀ y ∈ p.2, Q p.1 y := by
  induction d with
  | nil =>
    intro p hp y hy
    simp [alistAppend] at hp
    subst hp
    simp at hy
    subst hy
    exact hx
  | cons q rest ih =>
    rcases q with ⟨k', vs⟩
    intro p hp y hy
    rw [alistAppend] at hp
    by_cases hk : k = k'
    · rw [if_pos hk] at hp
      rcases List.mem_cons.mp hp with hp | hp
      · subst hp
        rcases List.mem_append.mp hy with hy | hy
        · exact hd (k', vs) (List.mem_cons_self _ _) y hy
        · simp at hy
          subst hy
          subst hk
          exact hx
      · exact hd p (List.mem_cons_of_mem _ hp) y hy
    · rw [if_neg hk] at hp
      rcases List.mem_cons.mp hp with hp | hp
      · subst hp
        exact hd (k', vs) (List.mem_cons_self _ _) y hy
      · exact ih (fun q hq => hd q (List.mem_cons_of_mem _ hq)) p hp y hy

/-- Every value stored by `bucketize key l` sits under its own key and
comes from `l`. -/
theorem bucketize_forall {κ α : Type} [DecidableEq κ] (key : α → κ) (l : List α) :
    ∀ p ∈ bucketize key l, ∀ y ∈ p.2, key y = p.1 ∧ y ∈ l := by
  have main : ∀ (l2 l0 : List α) (d : List (κ × List α)),
      (∀ x ∈ l2, x ∈ l0) →
      (∀ p ∈ d, ∀ y ∈ p.2, key y = p.1 ∧ y ∈ l0) →
      ∀ p ∈ l2.foldl (fun d x => alistAppend d (key x) x) d, ∀ y ∈ p.2,
        key y = p.1 ∧ y ∈ l0 := by
    intro l2
    induction l2 with
    | nil => intro l0 d _ hd; exact hd
    | cons x l2 ih =>
      intro l0 d hsub hd
      rw [List.foldl_cons]
      exact ih l0 _ (fun z hz => hsub z (List.mem_cons_of_mem _ hz))
        (alistAppend_forall (fun k y => key y = k ∧ y ∈ l0) d (key x) x hd ⟨rfl, hsub x (List.mem_cons_self _ _)⟩)
  exact main l l [] (fun x hx => hx) (by simp)

/-- A fold that only ever appends to its accumulator equals the
accumulator followed by the concatenation of the appended pieces. -/
theorem foldl_eq_append_flatMap {β γ : Type} (f : β → List γ) (step : List γ → β → List γ)
    (hstep : ∀ a x, step a x = a ++ f x) :
    ∀ (l : List β) (a : List γ), l.foldl step a = a ++ l.flatMap f := by
  intro l
  induction l with
  | nil => intro a; simp
  | cons x l ih =>
    intro a
    rw [List.foldl_cons, hstep, ih, List.flatMap_cons, List.append_assoc]

/-- Sub-permutations may be appended side by side. -/
theorem subperm_append_both {α : Type} {l₁ l₂ r₁ r₂ : List α}
    (h : l₁.Subperm l₂) (h' : r₁.Subperm r₂) : (l₁ ++ r₁).Subperm (l₂ ++ r₂) := by
  obtain ⟨u, pu, su⟩ := h
  obtain ⟨v, pv, sv⟩ := h'
  exact ⟨u ++ v, pu.append pv, su.append sv⟩

/-- A sub-permutation of a duplicate-free list is duplicate-free. -/
theorem subperm_nodup {α : Type} {l₁ l₂ : List α} (h : l₁.Subperm l₂) (hn : l₂.Nodup) :
    l₁.Nodup := by
  obtain ⟨u, pu, su⟩ := h
  exact pu.nodup (hn.sublist su)

/-- Pointwise sub-permutation lifts through `flatMap`. -/
theorem flatMap_subperm_pointwise {β γ : Type} (f g : β → List γ) :
    ∀ (l : List β), (∀ x ∈ l, (f x).Subperm (g x)) →
      (l.flatMap f).Subperm (l.flatMap g) := by
  intro l
  induction l with
  | nil => intro _; simp
  | cons x l ih =>
    intro hall
    rw [List.flatMap_cons, List.flatMap_cons]
    exact subperm_append_both (hall x (List.mem_cons_self _ _))
      (ih (fun z hz => hall z (List.mem_cons_of_mem _ hz)))

/-- The nested accumulation loops of `find_duplicates` compute the
concatenation, over the directory buckets, of the groups of each directory. -/
theorem find_duplicates_fst_eq (h : Bytes → String) (fbs : List (Nat × List FI))
    (fbd : List (String × List FI)) :
    (find_duplicates h fbs fbd).1 = fbd.flatMap (gDir h) := by
  have h3 : ∀ (dir : String) (a : List DupGroup) (hb : String × List FI),
      (if 1 < hb.2.length then
        a ++ [{ members := hb.2, size := headSize hb.2, directory := dir }]
      else a) = a ++ gHash dir hb := by
    intro dir a hb
    by_cases hlen : 1 < hb.2.length
    · simp [gHash, hlen]
    · simp [gHash, hlen]
  have h2 : ∀ (dir : String) (a : List DupGroup) (nb : String × List FI),
      (if 1 < nb.2.length then
        (bucketize (fun fi => full_hash_of h fi.file) nb.2).foldl
          (fun acc3 hb =>
            if 1 < hb.2.length then
              acc3 ++ [{ members := hb.2, size := headSize hb.2, directory := dir }]
            else acc3) a
      else a) = a ++ gName h dir nb := by
    intro dir a nb
    by_cases hlen : 1 < nb.2.length
    · rw [if_pos hlen, gName, if_pos hlen]
      exact foldl_eq_append_flatMap (gHash dir) _ (h3 dir) _ a
    · rw [if_neg hlen, gName, if_neg hlen, List.append_nil]
  refine Eq.trans ?_ (List.nil_append _)
  exact foldl_eq_append_flatMap (gDir h)
    (fun acc entry =>
      (bucketize (fun fi => get_normalized_name fi.file.name) entry.2).foldl
        (fun acc2 nb =>
          if 1 < nb.2.length then
            (bucketize (fun fi => full_hash_of h fi.file) nb.2).foldl
              (fun acc3 hb =>
                if 1 < hb.2.length then
                  acc3 ++ [{ members := hb.2, size := headSize hb.2, directory := entry.1 }]
                else acc3) acc2
          else acc2) acc)
    (fun a e => by
      rw [gDir]
      exact foldl_eq_append_flatMap (gName h e.1) _ (h2 e.1) _ a)
    fbd []

/-- Every reported group arises from a digest bucket of two or more files
inside a name bucket of two or more files of one directory. -/
theorem mem_find_duplicates {h : Bytes → String} {fbs : List (Nat × List FI)}
    {fbd : List (String × List FI)} {g : DupGroup}
    (hg : g ∈ (find_duplicates h fbs fbd).1) :
    ∃ e ∈ fbd, ∃ nb ∈ bucketize (fun fi => get_normalized_name fi.file.name) e.2,
      1 < nb.2.length ∧ ∃ hb ∈ bucketize (fun fi => full_hash_of h fi.file) nb.2,
        1 < hb.2.length ∧ g = { members := hb.2, size := headSize hb.2, directory := e.1 } := by
  rw [find_duplicates_fst_eq] at hg
  rcases List.mem_flatMap.mp hg with ⟨e, he, hge⟩
  rw [gDir] at hge
  rcases List.mem_flatMap.mp hge with ⟨nb, hnb, hgnb⟩
  rw [gName] at hgnb
  by_cases hlen : 1 < nb.2.length
  · rw [if_pos hlen] at hgnb
    rcases List.mem_flatMap.mp hgnb with ⟨hb, hhb, hghb⟩
    rw [gHash] at hghb
    by_cases hlen2 : 1 < hb.2.length
    · rw [if_pos hlen2] at hghb
      simp at hghb
      exact ⟨e, he, nb, hnb, hlen, hb, hhb, hlen2, hghb⟩
    · rw [if_neg hlen2] at hghb
      simp at hghb
  · rw [if_neg hlen] at hgnb
    simp at hgnb

/-- Unfolding the flat walk stream over the first directory. -/
theorem flatPairs_cons (e : String × List FSFile) (fs : List (String × List FSFile)) :
    flatPairs (e :: fs) = e.2.map (fun f => (e.1, f)) ++ flatPairs fs := by
  simp [flatPairs]

/-- Unfolding the file count over the first directory. -/
theorem totalFiles_cons (e : String × List FSFile) (fs : List (String × List FSFile)) :
    totalFiles (e :: fs) = e.2.length + totalFiles fs := by
  simp [totalFiles]

/-- The directory-then-file double loop of `scan_directory` equals a
single loop over the flat stream of (directory, file) pairs. -/
theorem scan_fold_flatten (total chunk : Nat) :
    ∀ (fs : List (String × List FSFile)) (st : ScanState),
      fs.foldl (fun st e => e.2.foldl (fun st f => scanStep total chunk st e.1 f) st) st
        = (flatPairs fs).foldl (pairStep total chunk) st := by
  intro fs
  induction fs with
  | nil => intro st; simp [flatPairs]
  | cons e fs ih =>
    intro st
    rw [List.foldl_cons, ih (e.2.foldl (fun st f => scanStep total chunk st e.1 f) st)]
    rw [flatPairs_cons, List.foldl_append, List.foldl_map]
    rfl

/-- One scan step updates `files_by_directory` exactly as `bdStep`. -/
theorem pairStep_byDir (t c : Nat) (st : ScanState) (p : String × FSFile) :
    (pairStep t c st p).files_by_directory = bdStep st.files_by_directory p := by
  rcases p with ⟨dir, f⟩
  rw [pairStep, scanStep, bdStep]
  by_cases hsz : 0 < fileSize f
  · simp [hsz]
  · simp [hsz]

/-- The `files_by_directory` component of the scan fold is the fold of
`bdStep` alone. -/
theorem foldl_pairStep_byDir (t c : Nat) :
    ∀ (l : List (String × FSFile)) (st : ScanState),
      (l.foldl (pairStep t c) st).files_by_directory = l.foldl bdStep st.files_by_directory := by
  intro l
  induction l with
  | nil => intro st; rfl
  | cons p l ih =>
    intro st
    rw [List.foldl_cons, List.foldl_cons, ih, pairStep_byDir]

/-- Folding `bdStep` indexes exactly the positive-size files, keyed by
their directory. -/
theorem bdStep_fold_eq (l : List (String × FSFile)) :
    ∀ (acc : List (String × List FI)),
      l.foldl bdStep acc
        = ((l.map (fun p => FI.mk p.1 p.2)).filter (fun fi => 0 < fileSize fi.file)).foldl
            (fun d fi => alistAppend d fi.dir fi) acc := by
  induction l with
  | nil => intro acc; rfl
  | cons p l ih =>
    intro acc
    rw [List.foldl_cons, List.map_cons]
    by_cases hsz : 0 < fileSize p.2
    · rw [List.filter_cons_of_pos (by simpa [fileSize] using hsz), List.foldl_cons, ih]
      rw [bdStep, if_pos hsz]
    · rw [List.filter_cons_of_neg (by simpa [fileSize] using hsz), ih]
      rw [bdStep, if_neg hsz]

/-- The pre-count of `scan_directory` equals the length of the flat walk
stream. -/
theorem totalFiles_eq_flat_length (fs : List (String × List FSFile)) :
    (flatPairs fs).length = totalFiles fs := by
  induction fs with
  | nil => rfl
  | cons e fs ih =>
    rw [flatPairs_cons, List.length_append, List.length_map, ih, totalFiles_cons]

/-- A walk that counts zero files visits no (directory, file) pairs. -/
theorem flatPairs_nil_of_total_zero {fs : List (String × List FSFile)}
    (h0 : totalFiles fs = 0) : flatPairs fs = [] := by
  have := totalFiles_eq_flat_length fs
  rw [h0] at this
  exact List.eq_nil_of_length_eq_zero this

/-- `files_by_directory` as produced by `scan_directory` is the
insertion-ordered directory index of the positive-size files. -/
theorem scan_byDir_eq (fs : List (String × List FSFile)) :
    (scan_directory fs).2.1 = bucketize FI.dir (scanFIs fs) := by
  rw [scan_directory]
  by_cases h0 : totalFiles fs = 0
  · rw [if_pos h0]
    rw [scanFIs, flatPairs_nil_of_total_zero h0]
    rfl
  · rw [if_neg h0]
    simp only
    rw [scan_fold_flatten, foldl_pairStep_byDir, bdStep_fold_eq]
    rfl

/-- Every scan step increments `processed_files` by one. -/
theorem pairStep_processed (t c : Nat) (st : ScanState) (p : String × FSFile) :
    (pairStep t c st p).processed = st.processed + 1 := by
  rcases p with ⟨dir, f⟩
  rw [pairStep, scanStep]
  by_cases hsz : 0 < fileSize f
  · simp [hsz]
  · simp [hsz]

/-- One scan step reports `processed * 50 / total` exactly when the new
counter is a multiple of the chunk size. -/
theorem pairStep_ems (t c : Nat) (st : ScanState) (p : String × FSFile) :
    (pairStep t c st p).ems =
      if (st.processed + 1) % c = 0 then st.ems ++ [(st.processed + 1) * 50 / t]
      else st.ems := by
  rcases p with ⟨dir, f⟩
  rw [pairStep, scanStep]
  by_cases hsz : 0 < fileSize f
  · simp [hsz]
  · simp [hsz]

/-- Along the scan fold the reported values stay sorted and bounded by
`processed * 50 / total`, and `processed` counts the folded files. -/
theorem scan_ems_invariant (t c : Nat) (ht : 0 < t) :
    ∀ (l : List (String × FSFile)) (st : ScanState),
      st.processed + l.length ≤ t →
      List.Pairwise (· ≤ ·) st.ems →
      (∀ v ∈ st.ems, v ≤ st.processed * 50 / t) →
      List.Pairwise (· ≤ ·) (l.foldl (pairStep t c) st).ems ∧
        (∀ v ∈ (l.foldl (pairStep t c) st).ems,
          v ≤ (l.foldl (pairStep t c) st).processed * 50 / t) ∧
        (l.foldl (pairStep t c) st).processed = st.processed + l.length := by
  intro l
  induction l with
  | nil =>
    intro st hle hpw hbd
    exact ⟨hpw, hbd, by simp⟩
  | cons p l ih =>
    intro st hle hpw hbd
    rw [List.foldl_cons]
    have hmono : st.processed * 50 / t ≤ (st.processed + 1) * 50 / t :=
      Nat.div_le_div_right (Nat.mul_le_mul_right _ (Nat.le_succ _))
    have hpw1 : List.Pairwise (· ≤ ·) (pairStep t c st p).ems := by
      rw [pairStep_ems]
      by_cases hmod : (st.processed + 1) % c = 0
      · rw [if_pos hmod, List.pairwise_append]
        refine ⟨hpw, by simp, ?_⟩
        intro a ha b hb
        rw [List.mem_singleton] at hb
        subst hb
        exact le_trans (hbd a ha) hmono
      · rw [if_neg hmod]
        exact hpw
    have hbd1 : ∀ v ∈ (pairStep t c st p).ems,
        v ≤ (pairStep t c st p).processed * 50 / t := by
      rw [pairStep_ems, pairStep_processed]
      by_cases hmod : (st.processed + 1) % c = 0
      · rw [if_pos hmod]
        intro v hv
        rcases List.mem_append.mp hv with hv | hv
        · exact le_trans (hbd v hv) hmono
        · rw [List.mem_singleton] at hv
          subst hv
          exact le_refl _
      · rw [if_neg hmod]
        intro v hv
        exact le_trans (hbd v hv) hmono
    have hle1 : (pairStep t c st p).processed + l.length ≤ t := by
      rw [pairStep_processed]
      simp at hle
      omega
    rcases ih (pairStep t c st p) hle1 hpw1 hbd1 with ⟨hA, hB, hC⟩
    refine ⟨hA, hB, ?_⟩
    rw [hC, pairStep_processed]
    simp
    omega

/-- The progress values of phase 1 are non-decreasing and at most 50. -/
theorem scan_ems_props (fs : List (String × List FSFile)) :
    List.Pairwise (· ≤ ·) (scan_directory fs).2.2 ∧
      ∀ v ∈ (scan_directory fs).2.2, v ≤ 50 := by
  rw [scan_directory]
  by_cases h0 : totalFiles fs = 0
  · rw [if_pos h0]
    exact ⟨List.Pairwise.nil, by simp⟩
  · rw [if_neg h0]
    simp only
    rw [scan_fold_flatten]
    have ht : 0 < totalFiles fs := Nat.pos_of_ne_zero h0
    have hinv := scan_ems_invariant (totalFiles fs) (max 1 (totalFiles fs / 100)) ht
      (flatPairs fs) ⟨[], [], 0, []⟩
      (by rw [totalFiles_eq_flat_length]; simp) List.Pairwise.nil (by simp)
    rcases hinv with ⟨hA, hB, hC⟩
    refine ⟨hA, ?_⟩
    intro v hv
    have := hB v hv
    rw [hC, totalFiles_eq_flat_length] at this
    simp at this
    calc v ≤ totalFiles fs * 50 / totalFiles fs := this
      _ = 50 := by
        rw [Nat.mul_comm]
        exact Nat.mul_div_cancel 50 ht

/-- The members of the groups born from one digest bucket are a
sub-permutation of that bucket. -/
theorem gHash_members_subperm (dir : String) (hb : String × List FI) :
    ((gHash dir hb).flatMap (fun g => g.members)).Subperm hb.2 := by
  rw [gHash]
  by_cases hlen : 1 < hb.2.length
  · rw [if_pos hlen]
    simp only [List.flatMap_cons, List.flatMap_nil, List.append_nil]
    exact List.Subperm.refl _
  · rw [if_neg hlen]
    simp [List.nil_subperm]

/-- The members of the groups born from one name bucket are a
sub-permutation of that bucket. -/
theorem gName_members_subperm (h : Bytes → String) (dir : String) (nb : String × List FI) :
    ((gName h dir nb).flatMap (fun g => g.members)).Subperm nb.2 := by
  rw [gName]
  by_cases hlen : 1 < nb.2.length
  · rw [if_pos hlen, List.flatMap_assoc]
    refine List.Subperm.trans ?_ (bucketize_join_perm (fun fi => full_hash_of h fi.file) nb.2).subperm
    exact flatMap_subperm_pointwise _ _ _ (fun hb _ => gHash_members_subperm dir hb)
  · rw [if_neg hlen]
    simp [List.nil_subperm]

/-- The members of the groups of one directory are a sub-permutation of
the files of that directory. -/
theorem gDir_members_subperm (h : Bytes → String) (e : String × List FI) :
    ((gDir h e).flatMap (fun g => g.members)).Subperm e.2 := by
  rw [gDir, List.flatMap_assoc]
  refine List.Subperm.trans ?_
    (bucketize_join_perm (fun fi => get_normalized_name fi.file.name) e.2).subperm
  exact flatMap_subperm_pointwise _ _ _ (fun nb _ => gName_members_subperm h e.1 nb)

/-- All group members together are a sub-permutation of all catalogued
files together. -/
theorem groups_members_subperm (h : Bytes → String) (fbs : List (Nat × List FI))
    (fbd : List (String × List FI)) :
    (((find_duplicates h fbs fbd).1).flatMap (fun g => g.members)).Subperm (bucketsJoin fbd) := by
  rw [find_duplicates_fst_eq, List.flatMap_assoc, bucketsJoin]
  exact flatMap_subperm_pointwise _ _ _ (fun e _ => gDir_members_subperm h e)

/-- Every catalogued file has positive recorded size. -/
theorem scanFIs_mem_size {fs : List (String × List FSFile)} {fi : FI}
    (hfi : fi ∈ scanFIs fs) : 0 < fileSize fi.file := by
  rw [scanFIs] at hfi
  have := (List.mem_filter.mp hfi).2
  simpa using this

/-- Every file listed under a directory key of the catalog carries that
directory and was catalogued by the scan. -/
theorem byDir_bucket_facts (fs : List (String × List FSFile)) :
    ∀ e ∈ (scan_directory fs).2.1, ∀ fi ∈ e.2, fi.dir = e.1 ∧ fi ∈ scanFIs fs := by
  rw [scan_byDir_eq]
  exact bucketize_forall FI.dir (scanFIs fs)

/-- The groups returned by `duplicate_file_finder` are those of
`find_duplicates` on the scanned catalog. -/
theorem duplicate_file_finder_fst (h : Bytes → String) (fs : List (String × List FSFile)) :
    (duplicate_file_finder h fs).1
      = (find_duplicates h (scan_directory fs).1 (scan_directory fs).2.1).1 := rfl

/-- The full progress trace: 0, then the phase-1 values, then 50, then
nothing — `find_duplicates` never invokes the callback. -/
theorem duplicate_file_finder_snd (h : Bytes → String) (fs : List (String × List FSFile)) :
    (duplicate_file_finder h fs).2 = [0] ++ (scan_directory fs).2.2 ++ [50] := by
  rw [duplicate_file_finder]
  simp [find_duplicates]

/-- Scanning one directory with two positive-size files catalogues
exactly those two, in order. -/
theorem two_file_byDir (d : String) (f1 f2 : FSFile)
    (h1 : 0 < fileSize f1) (h2 : 0 < fileSize f2) :
    (scan_directory [(d, [f1, f2])]).2.1 = [(d, [⟨d, f1⟩, ⟨d, f2⟩])] := by
  rw [scan_byDir_eq]
  have hfis : scanFIs [(d, [f1, f2])] = [⟨d, f1⟩, ⟨d, f2⟩] := by
    rw [scanFIs]
    simp [flatPairs]
    exact ⟨h1, h2⟩
  rw [hfis]
  simp [bucketize, alistAppend]

/-- Two same-directory files whose names normalize alike and whose
digests agree form exactly one group holding both. -/
theorem two_file_groups_same_hash (h : Bytes → String) (d : String) (f1 f2 : FSFile)
    (h1 : 0 < fileSize f1) (h2 : 0 < fileSize f2)
    (hnorm : get_normalized_name f2.name = get_normalized_name f1.name)
    (hhash : full_hash_of h f2 = full_hash_of h f1) :
    (duplicate_file_finder h [(d, [f1, f2])]).1
      = [{ members := [⟨d, f1⟩, ⟨d, f2⟩], size := fileSize f1, directory := d }] := by
  rw [duplicate_file_finder_fst, find_duplicates_fst_eq, two_file_byDir d f1 f2 h1 h2]
  have hb1 : bucketize (fun fi => get_normalized_name fi.file.name)
      ([⟨d, f1⟩, ⟨d, f2⟩] : List FI) = [(get_normalized_name f1.name, [⟨d, f1⟩, ⟨d, f2⟩])] := by
    simp [bucketize, alistAppend, hnorm]
  have hb2 : bucketize (fun fi => full_hash_of h fi.file)
      ([⟨d, f1⟩, ⟨d, f2⟩] : List FI) = [(full_hash_of h f1, [⟨d, f1⟩, ⟨d, f2⟩])] := by
    simp [bucketize, alistAppend, hhash]
  simp [gDir, gName, gHash, hb1, hb2, headSize]

/-- Two same-directory files whose digests differ never form a group,
whatever their names. -/
theorem two_file_groups_diff_hash (h : Bytes → String) (d : String) (f1 f2 : FSFile)
    (h1 : 0 < fileSize f1) (h2 : 0 < fileSize f2)
    (hhash : full_hash_of h f2 ≠ full_hash_of h f1) :
    (duplicate_file_finder h [(d, [f1, f2])]).1 = [] := by
  rw [duplicate_file_finder_fst, find_duplicates_fst_eq, two_file_byDir d f1 f2 h1 h2]
  by_cases hnorm : get_normalized_name f2.name = get_normalized_name f1.name
  · have hb1 : bucketize (fun fi => get_normalized_name fi.file.name)
        ([⟨d, f1⟩, ⟨d, f2⟩] : List FI) = [(get_normalized_name f1.name, [⟨d, f1⟩, ⟨d, f2⟩])] := by
      simp [bucketize, alistAppend, hnorm]
    have hb2 : bucketize (fun fi => full_hash_of h fi.file)
        ([⟨d, f1⟩, ⟨d, f2⟩] : List FI)
        = [(full_hash_of h f1, [⟨d, f1⟩]), (full_hash_of h f2, [⟨d, f2⟩])] := by
      simp [bucketize, alistAppend, hhash]
    simp [gDir, gName, gHash, hb1, hb2]
  · have hb1 : bucketize (fun fi => get_normalized_name fi.file.name)
        ([⟨d, f1⟩, ⟨d, f2⟩] : List FI)
        = [(get_normalized_name f1.name, [⟨d, f1⟩]), (get_normalized_name f2.name, [⟨d, f2⟩])] := by
      simp [bucketize, alistAppend, hnorm]
    simp [gDir, gName, gHash, hb1]

/-- A positive recorded size means the stat succeeded and the size is the
content length. -/
theorem fileSize_pos_elim {f : FSFile} (hpos : 0 < fileSize f) :
    f.statOk = true ∧ fileSize f = f.content.length := by
  rw [fileSize] at hpos ⊢
  by_cases hstat : f.statOk = true
  · exact ⟨hstat, by rw [if_pos hstat]⟩
  · rw [if_neg hstat] at hpos
    omega

/-- Anatomy of a reported group: members are catalogued files of the
directory of the group, they share one digest-bucket key, the recorded
size is that of the first member, and there are at least two members. -/
theorem group_members_in_catalog {h : Bytes → String} {fs : List (String × List FSFile)}
    {g : DupGroup} (hg : g ∈ (duplicate_file_finder h fs).1) :
    (∀ fi ∈ g.members, fi.dir = g.directory ∧ fi ∈ scanFIs fs) ∧
    (∀ fi ∈ g.members, ∀ fj ∈ g.members,
      full_hash_of h fi.file = full_hash_of h fj.file) ∧
    (∃ f0 : FI, ∃ rest : List FI, g.members = f0 :: rest ∧ g.size = fileSize f0.file) ∧
    2 ≤ g.members.length := by
  rw [duplicate_file_finder_fst] at hg
  rcases mem_find_duplicates hg with ⟨e, he, nb, hnb, hlen, hb, hhb, hlen2, hgeq⟩
  have hhashfacts := bucketize_forall (fun fi => full_hash_of h fi.file) nb.2 hb hhb
  have hnamefacts := bucketize_forall (fun fi => get_normalized_name fi.file.name) e.2
  have hnf2 := hnamefacts nb hnb
  have hdirfacts := byDir_bucket_facts fs e he
  subst hgeq
  refine ⟨?_, ?_, ?_, ?_⟩
  · intro fi hfi
    have h1 := hhashfacts fi hfi
    have h2 := hnf2 fi h1.2
    have h3 := hdirfacts fi h2.2
    exact ⟨h3.1, h3.2⟩
  · intro fi hfi fj hfj
    exact ((hhashfacts fi hfi).1).trans ((hhashfacts fj hfj).1).symm
  · rcases hbs : hb.2 with _ | ⟨f0, rest⟩
    · rw [hbs] at hlen2
      simp at hlen2
    · exact ⟨f0, rest, rfl, rfl⟩
  · show 2 ≤ hb.2.length
    omega

/-- A group lists as many paths as members. -/
theorem paths_length (g : DupGroup) : g.paths.length = g.members.length := by
  rw [DupGroup.paths, List.length_map]

/-- The running wasted-space total of `display_duplicates` is the sum of
the per-group metric. -/
theorem foldl_add_wasted (gs : List DupGroup) :
    ∀ (a : Nat), gs.foldl (fun total g => total + group_wasted_space g) a
      = a + (gs.map (fun g => g.size * (g.paths.length - 1))).sum := by
  induction gs with
  | nil => intro a; simp
  | cons g gs ih =>
    intro a
    rw [List.foldl_cons, ih, List.map_cons, List.sum_cons, group_wasted_space]
    omega

/-- A second `size` access returns the cached value and leaves the cache
alone, whatever the filesystem now says. -/
theorem size_access_stable (f fAlt : FSFile) (st : FileInfoCache) :
    size_access fAlt (size_access f st).2 = ((size_access f st).1, (size_access f st).2) := by
  rcases st with ⟨cs, cq, cf⟩
  rcases cs with _ | s
  · by_cases hstat : f.statOk = true
    · simp [size_access, hstat]
    · simp [size_access, hstat]
  · simp [size_access]

/-- A second `quick_hash` access returns the cached digest and leaves the
cache alone, whatever the filesystem now says. -/
theorem quick_hash_access_stable (h : Bytes → String) (f fAlt : FSFile) (st : FileInfoCache) :
    quick_hash_access h fAlt (quick_hash_access h f st).2
      = ((quick_hash_access h f st).1, (quick_hash_access h f st).2) := by
  rcases st with ⟨cs, cq, cf⟩
  rcases cq with _ | s
  · by_cases hread : f.readOk = true
    · simp [quick_hash_access, hread]
    · simp [quick_hash_access, hread]
  · simp [quick_hash_access]

/-- A second `full_hash` access returns the cached digest and leaves the
cache alone, whatever the filesystem now says. -/
theorem full_hash_access_stable (h : Bytes → String) (f fAlt : FSFile) (st : FileInfoCache) :
    full_hash_access h fAlt (full_hash_access h f st).2
      = ((full_hash_access h f st).1, (full_hash_access h f st).2) := by
  rcases st with ⟨cs, cq, cf⟩
  rcases cf with _ | s
  · by_cases hread : f.readOk = true
    · simp [full_hash_access, hread]
    · simp [full_hash_access, hread]
  · simp [full_hash_access]

/-- After any `size` access the returned value is cached. -/
theorem size_access_caches (f : FSFile) (st : FileInfoCache) :
    (size_access f st).2.csize = some (size_access f st).1 := by
  rcases st with ⟨cs, cq, cf⟩
  rcases cs with _ | s
  · by_cases hstat : f.statOk = true
    · simp [size_access, hstat]
    · simp [size_access, hstat]
  · simp [size_access]

/-- After any `quick_hash` access the returned digest is cached. -/
theorem quick_hash_access_caches (h : Bytes → String) (f : FSFile) (st : FileInfoCache) :
    (quick_hash_access h f st).2.cquick = some (quick_hash_access h f st).1 := by
  rcases st with ⟨cs, cq, cf⟩
  rcases cq with _ | s
  · by_cases hread : f.readOk = true
    · simp [quick_hash_access, hread]
    · simp [quick_hash_access, hread]
  · simp [quick_hash_access]

/-- After any `full_hash` access the returned digest is cached. -/
theorem full_hash_access_caches (h : Bytes → String) (f : FSFile) (st : FileInfoCache) :
    (full_hash_access h f st).2.cfull = some (full_hash_access h f st).1 := by
  rcases st with ⟨cs, cq, cf⟩
  rcases cf with _ | s
  · by_cases hread : f.readOk = true
    · simp [full_hash_access, hread]
    · simp [full_hash_access, hread]
  · simp [full_hash_access]

/-- First accesses on a fresh record: the stat size or sentinel 0, and
the content digests or sentinel `""`. -/
theorem fresh_access_values (h : Bytes → String) (f : FSFile) :
    (size_access f emptyCache).1 = (if f.statOk then f.content.length else 0) ∧
    (quick_hash_access h f emptyCache).1
      = (if f.readOk then h (quickReadBytes f.content) else "") ∧
    (full_hash_access h f emptyCache).1
      = (if f.readOk then h (fullReadBytes f.content) else "") := by
  refine ⟨?_, ?_, ?_⟩
  · by_cases hstat : f.statOk = true
    · simp [size_access, emptyCache, hstat]
    · simp [size_access, emptyCache, hstat]
  · by_cases hread : f.readOk = true
    · simp [quick_hash_access, emptyCache, hread]
    · simp [quick_hash_access, emptyCache, hread]
  · by_cases hread : f.readOk = true
    · simp [full_hash_access, emptyCache, hread]
    · simp [full_hash_access, emptyCache, hread]

/-- Claim C8: the `size`, `quick_hash` and `full_hash` accessors of a
`FileInfo` record never raise: each does its filesystem work at most once,
caches the result, and on failure caches and returns the sentinel (0 for
the size, the empty string for either digest); a later access — even
against a changed filesystem — returns the cached value unchanged and never
retries.  (The accessors are total functions of the embedding; the source
catches every `OSError` and `PermissionError` it can encounter.) -/
theorem claim_c8 (h : Bytes → String) (f fAlt : FSFile) (st : FileInfoCache) :
    size_access fAlt (size_access f st).2 = ((size_access f st).1, (size_access f st).2) ∧
    quick_hash_access h fAlt (quick_hash_access h f st).2
      = ((quick_hash_access h f st).1, (quick_hash_access h f st).2) ∧
    full_hash_access h fAlt (full_hash_access h f st).2
      = ((full_hash_access h f st).1, (full_hash_access h f st).2) ∧
    (size_access f st).2.csize = some (size_access f st).1 ∧
    (quick_hash_access h f st).2.cquick = some (quick_hash_access h f st).1 ∧
    (full_hash_access h f st).2.cfull = some (full_hash_access h f st).1 ∧
    (size_access f emptyCache).1 = (if f.statOk then f.content.length else 0) ∧
    (quick_hash_access h f emptyCache).1
      = (if f.readOk then h (quickReadBytes f.content) else "") ∧
    (full_hash_access h f emptyCache).1
      = (if f.readOk then h (fullReadBytes f.content) else "") :=
  ⟨size_access_stable f fAlt st, quick_hash_access_stable h f fAlt st,
    full_hash_access_stable h f fAlt st, size_access_caches f st,
    quick_hash_access_caches h f st, full_hash_access_caches h f st,
    (fresh_access_values h f).1, (fresh_access_values h f).2.1,
    (fresh_access_values h f).2.2⟩

/-- Claim C9: for a readable file of at most 1 MiB, `quick_hash` equals
`full_hash` — both loops feed the identical byte sequence to md5, so the
quick digest cannot separate such files where the full digest would group
them. -/
theorem claim_c9 (h : Bytes → String) (f : FSFile) (hread : f.readOk = true)
    (hlen : f.content.length ≤ MAX_QUICK_READ_SIZE) :
    quick_hash_of h f = full_hash_of h f := by
  rw [quick_hash_of, full_hash_of, if_pos hread, if_pos hread, quickReadBytes_eq,
    fullReadBytes_eq, List.take_of_length_le hlen]

/-- Witness for C9 at a concrete three-byte readable file. -/
theorem claim_c9_witness :
    (⟨"a.txt", [1, 2, 3], true, true⟩ : FSFile).readOk = true ∧
    (⟨"a.txt", [1, 2, 3], true, true⟩ : FSFile).content.length ≤ MAX_QUICK_READ_SIZE ∧
    quick_hash_of constLenHash ⟨"a.txt", [1, 2, 3], true, true⟩
      = full_hash_of constLenHash ⟨"a.txt", [1, 2, 3], true, true⟩ :=
  ⟨rfl, by decide, claim_c9 constLenHash ⟨"a.txt", [1, 2, 3], true, true⟩ rfl (by decide)⟩

/-- Claim C5: for every scan, the wasted-space metric of each reported
group equals `size * (memberCount - 1)` (with at least 2 members, so the
metric is defined), and the scan-level total accumulated by
`display_duplicates` equals the sum of the metric over all reported
groups. -/
theorem claim_c5 (h : Bytes → String) (fs : List (String × List FSFile)) :
    display_total_wasted (duplicate_file_finder h fs).1
      = (((duplicate_file_finder h fs).1).map (fun g => g.size * (g.paths.length - 1))).sum ∧
    ∀ g ∈ (duplicate_file_finder h fs).1,
      group_wasted_space g = g.size * (g.paths.length - 1) ∧ 2 ≤ g.paths.length := by
  constructor
  · rw [display_total_wasted, foldl_add_wasted]
    simp
  · intro g hg
    refine ⟨rfl, ?_⟩
    rcases group_members_in_catalog hg with ⟨_, _, _, hlen⟩
    rw [paths_length]
    exact hlen

/-- Witness for C5 on the concrete two-copy directory. -/
theorem claim_c5_witness :
    display_total_wasted (duplicate_file_finder constLenHash wfs0).1
      = (((duplicate_file_finder constLenHash wfs0).1).map
          (fun g => g.size * (g.paths.length - 1))).sum ∧
    ∀ g ∈ (duplicate_file_finder constLenHash wfs0).1,
      group_wasted_space g = g.size * (g.paths.length - 1) ∧ 2 ≤ g.paths.length :=
  claim_c5 constLenHash wfs0

/-- Claim C4: every member of a reported group carries the directory of
the group, so files from two different directories are never members of one
group. -/
theorem claim_c4 (h : Bytes → String) (fs : List (String × List FSFile)) (g : DupGroup)
    (hg : g ∈ (duplicate_file_finder h fs).1) :
    (∀ fi ∈ g.members, fi.dir = g.directory) ∧
    (∀ fi ∈ g.members, ∀ fj ∈ g.members, fi.dir = fj.dir) := by
  rcases group_members_in_catalog hg with ⟨hdir, _, _, _⟩
  exact ⟨fun fi hfi => (hdir fi hfi).1,
    fun fi hfi fj hfj => ((hdir fi hfi).1).trans ((hdir fj hfj).1).symm⟩

/-- Witness for C4 on the concrete two-copy directory and its group. -/
theorem claim_c4_witness :
    wgroup ∈ (duplicate_file_finder constLenHash wfs0).1 ∧
    (∀ fi ∈ wgroup.members, fi.dir = wgroup.directory) ∧
    (∀ fi ∈ wgroup.members, ∀ fj ∈ wgroup.members, fi.dir = fj.dir) :=
  ⟨by decide, claim_c4 constLenHash wfs0 wgroup (by decide)⟩

/-- Counterexample to C3 as stated: two same-named files that stat fine
(sizes 5 and 2) but cannot be read both cache the sentinel digest `""`,
land in one digest bucket, and form a group whose recorded size 5 differs
from the size 2 of its second member. -/
theorem claim_c3_counterexample :
    ¬ (∀ g ∈ (duplicate_file_finder constLenHash bfs).1,
        ∀ fi ∈ g.members, fileSize fi.file = g.size) ∧
    (duplicate_file_finder constLenHash bfs).1
      = [{ members := [⟨"d", bf1⟩, ⟨"d", bf2⟩], size := 5, directory := "d" }] ∧
    fileSize bf2 = 2 := by decide

/-- Claim C3 (amended): in every reported group all of whose members were
read successfully, and with the digest treated as collision-free on the
members, every member has the same size — the recorded group size. -/
theorem claim_c3_amended (h : Bytes → String) (fs : List (String × List FSFile))
    (g : DupGroup) (hg : g ∈ (duplicate_file_finder h fs).1)
    (hread : ∀ fi ∈ g.members, fi.file.readOk = true)
    (hinj : ∀ fi ∈ g.members, ∀ fj ∈ g.members,
      h (fullReadBytes fi.file.content) = h (fullReadBytes fj.file.content) →
        fi.file.content = fj.file.content) :
    ∀ fi ∈ g.members, fileSize fi.file = g.size := by
  rcases group_members_in_catalog hg with ⟨hdir, hhash, ⟨f0, rest, hmem, hsize⟩, _⟩
  have hf0 : f0 ∈ g.members := by
    rw [hmem]
    exact List.mem_cons_self _ _
  intro fi hfi
  have hkey := hhash fi hfi f0 hf0
  rw [full_hash_of, full_hash_of, if_pos (hread fi hfi), if_pos (hread f0 hf0)] at hkey
  have hcontent : fi.file.content = f0.file.content := hinj fi hfi f0 hf0 hkey
  have hpos_fi := fileSize_pos_elim (scanFIs_mem_size (hdir fi hfi).2)
  have hpos_f0 := fileSize_pos_elim (scanFIs_mem_size (hdir f0 hf0).2)
  rw [hsize, hpos_fi.2, hpos_f0.2, hcontent]

/-- Witness for the amended C3 on the concrete two-copy directory. -/
theorem claim_c3_amended_witness :
    wgroup ∈ (duplicate_file_finder constLenHash wfs0).1 ∧
    (∀ fi ∈ wgroup.members, fi.file.readOk = true) ∧
    (∀ fi ∈ wgroup.members, ∀ fj ∈ wgroup.members,
      constLenHash (fullReadBytes fi.file.content)
          = constLenHash (fullReadBytes fj.file.content) →
        fi.file.content = fj.file.content) ∧
    ∀ fi ∈ wgroup.members, fileSize fi.file = wgroup.size :=
  ⟨by decide, by decide, by decide,
    claim_c3_amended constLenHash wfs0 wgroup (by decide) (by decide) (by decide)⟩

/-- Claim C10: when the scanned catalog lists no file twice, every file
record appears in at most one reported group and at most once inside it —
the concatenation of all member lists is duplicate-free. -/
theorem claim_c10 (h : Bytes → String) (fs : List (String × List FSFile))
    (hnd : (scanFIs fs).Nodup) :
    (((duplicate_file_finder h fs).1).flatMap (fun g => g.members)).Nodup := by
  rw [duplicate_file_finder_fst]
  refine subperm_nodup
    (groups_members_subperm h (scan_directory fs).1 (scan_directory fs).2.1) ?_
  have hperm : (bucketsJoin ((scan_directory fs).2.1)).Perm (scanFIs fs) := by
    rw [scan_byDir_eq]
    exact bucketize_join_perm FI.dir (scanFIs fs)
  exact hperm.symm.nodup hnd

/-- Witness for C10 on the concrete two-copy directory. -/
theorem claim_c10_witness :
    (scanFIs wfs0).Nodup ∧
    (((duplicate_file_finder constLenHash wfs0).1).flatMap (fun g => g.members)).Nodup :=
  ⟨by decide, claim_c10 constLenHash wfs0 (by decide)⟩

/-- Counterexample to C6 as stated: on a one-directory scan the grouping
stage invokes the progress callback — the only place the cancellation flag
is consulted — zero times, not at least once per directory; and a run
cancelled from the very start still computes its one group internally yet
delivers no terminal result at all (neither partial groups nor an explicit
empty list). -/
theorem claim_c6_counterexample :
    (find_duplicates constLenHash (scan_directory wfs0).1 (scan_directory wfs0).2.1).2 = [] ∧
    (scan_directory wfs0).2.1.length = 1 ∧
    (threadRun constLenHash wfs0 (some 0)).2 = none ∧
    (threadRun constLenHash wfs0 (some 0)).1 = [] ∧
    (duplicate_file_finder constLenHash wfs0).1.length = 1 := by decide

/-- Claim C6 (amended): the grouping stage never consults the
cancellation flag (it never invokes the callback), so cancellation does not
abort the scan; still, a run whose flag goes down at or before the final
running-check delivers no completed result — in particular never a
non-empty group list — and no exception escapes (the cancellation-induced
`InterruptedError` is swallowed inside `safe_progress_callback`). -/
theorem claim_c6_amended (h : Bytes → String) (fs : List (String × List FSFile))
    (k : Nat) (hk : k ≤ (duplicate_file_finder h fs).2.length) :
    (threadRun h fs (some k)).2 = none ∧
    (threadRun h fs (some k)).1 = (duplicate_file_finder h fs).2.take k ∧
    (find_duplicates h (scan_directory fs).1 (scan_directory fs).2.1).2 = [] := by
  refine ⟨?_, rfl, by rw [find_duplicates]⟩
  have hrun : runningAfter (some k) (duplicate_file_finder h fs).2.length = false := by
    rw [runningAfter]
    simp
    omega
  show (if runningAfter (some k) (duplicate_file_finder h fs).2.length = true
    then some (duplicate_file_finder h fs).1 else none) = none
  rw [hrun]
  simp

/-- Witness for the amended C6: cancelling at checkpoint 2 of the
concrete scan. -/
theorem claim_c6_amended_witness :
    2 ≤ (duplicate_file_finder constLenHash wfs0).2.length ∧
    (threadRun constLenHash wfs0 (some 2)).2 = none ∧
    (threadRun constLenHash wfs0 (some 2)).1 = (duplicate_file_finder constLenHash wfs0).2.take 2 ∧
    (find_duplicates constLenHash (scan_directory wfs0).1 (scan_directory wfs0).2.1).2 = [] :=
  ⟨by decide, claim_c6_amended constLenHash wfs0 2 (by decide)⟩

/-- Counterexample to C7 as stated: a scan that completes successfully
reports the trace `[0, 50, 50]` — the value 100 is never reported even
though grouping completed for every directory. -/
theorem claim_c7_counterexample :
    (duplicate_file_finder constLenHash wsingle).2 = [0, 50, 50] ∧
    100 ∉ (duplicate_file_finder constLenHash wsingle).2 := by decide

/-- Claim C7 (amended): the reported progress sequence is monotonically
non-decreasing and bounded by 50; the grouping stage reports nothing, and
100 is never reported (the UI sets its bar to 100 itself when displaying
results). -/
theorem claim_c7_amended (h : Bytes → String) (fs : List (String × List FSFile)) :
    List.Pairwise (· ≤ ·) (duplicate_file_finder h fs).2 ∧
    (∀ v ∈ (duplicate_file_finder h fs).2, v ≤ 50) ∧
    100 ∉ (duplicate_file_finder h fs).2 ∧
    (find_duplicates h (scan_directory fs).1 (scan_directory fs).2.1).2 = [] := by
  rcases scan_ems_props fs with ⟨hpw, hbd⟩
  rw [duplicate_file_finder_snd]
  have hmem : ∀ v ∈ ([0] ++ (scan_directory fs).2.2 ++ [50] : List Nat), v ≤ 50 := by
    intro v hv
    rcases List.mem_append.mp hv with hv | hv
    · rcases List.mem_append.mp hv with hv | hv
      · rw [List.mem_singleton] at hv
        omega
      · exact hbd v hv
    · rw [List.mem_singleton] at hv
      omega
  refine ⟨?_, hmem, ?_, by rw [find_duplicates]⟩
  · rw [List.pairwise_append, List.pairwise_append]
    refine ⟨⟨by simp, hpw, ?_⟩, by simp, ?_⟩
    · intro a ha b hb
      rw [List.mem_singleton] at ha
      subst ha
      omega
    · intro a ha b hb
      rw [List.mem_singleton] at hb
      subst hb
      rcases List.mem_append.mp ha with ha | ha
      · rw [List.mem_singleton] at ha
        omega
      · exact hbd a ha
  · intro hcontra
    have := hmem 100 hcontra
    omega

/-- Witness for the amended C7 on a concrete one-file scan. -/
theorem claim_c7_amended_witness :
    List.Pairwise (· ≤ ·) (duplicate_file_finder constLenHash wsingle).2 ∧
    (∀ v ∈ (duplicate_file_finder constLenHash wsingle).2, v ≤ 50) ∧
    100 ∉ (duplicate_file_finder constLenHash wsingle).2 ∧
    (find_duplicates constLenHash (scan_directory wsingle).1 (scan_directory wsingle).2.1).2
      = [] :=
  claim_c7_amended constLenHash wsingle

/-- Claim C1: a directory holding exactly two readable files with the
same non-empty content named `report.pdf` and `copy of report.pdf` (or
`report.pdf` and `report (1).pdf`) yields both names normalized to the one
key `report.pdf` and exactly one group whose member list is exactly those
two files. -/
theorem claim_c1 (h : Bytes → String) (d : String) (c : Bytes) (hc : 0 < c.length) :
    get_normalized_name "copy of report.pdf" = get_normalized_name "report.pdf" ∧
    get_normalized_name "report (1).pdf" = get_normalized_name "report.pdf" ∧
    (duplicate_file_finder h
        [(d, [⟨"report.pdf", c, true, true⟩, ⟨"copy of report.pdf", c, true, true⟩])]).1
      = [{ members := [⟨d, ⟨"report.pdf", c, true, true⟩⟩,
                       ⟨d, ⟨"copy of report.pdf", c, true, true⟩⟩],
           size := c.length, directory := d }] ∧
    (duplicate_file_finder h
        [(d, [⟨"report.pdf", c, true, true⟩, ⟨"report (1).pdf", c, true, true⟩])]).1
      = [{ members := [⟨d, ⟨"report.pdf", c, true, true⟩⟩,
                       ⟨d, ⟨"report (1).pdf", c, true, true⟩⟩],
           size := c.length, directory := d }] := by
  have hsz1 : 0 < fileSize (⟨"report.pdf", c, true, true⟩ : FSFile) := by
    simpa [fileSize] using hc
  have hsz2 : 0 < fileSize (⟨"copy of report.pdf", c, true, true⟩ : FSFile) := by
    simpa [fileSize] using hc
  have hsz3 : 0 < fileSize (⟨"report (1).pdf", c, true, true⟩ : FSFile) := by
    simpa [fileSize] using hc
  refine ⟨by decide, by decide, ?_, ?_⟩
  · rw [two_file_groups_same_hash h d _ _ hsz1 hsz2
      (show get_normalized_name "copy of report.pdf" = get_normalized_name "report.pdf"
        by decide) rfl]
    simp [fileSize]
  · rw [two_file_groups_same_hash h d _ _ hsz1 hsz3
      (show get_normalized_name "report (1).pdf" = get_normalized_name "report.pdf"
        by decide) rfl]
    simp [fileSize]

/-- Witness for C1 with three bytes of content. -/
theorem claim_c1_witness :
    0 < ([1, 2, 3] : Bytes).length ∧
    get_normalized_name "copy of report.pdf" = get_normalized_name "report.pdf" ∧
    get_normalized_name "report (1).pdf" = get_normalized_name "report.pdf" ∧
    (duplicate_file_finder constLenHash
        [("d", [⟨"report.pdf", [1, 2, 3], true, true⟩,
                ⟨"copy of report.pdf", [1, 2, 3], true, true⟩])]).1
      = [{ members := [⟨"d", ⟨"report.pdf", [1, 2, 3], true, true⟩⟩,
                       ⟨"d", ⟨"copy of report.pdf", [1, 2, 3], true, true⟩⟩],
           size := ([1, 2, 3] : Bytes).length, directory := "d" }] ∧
    (duplicate_file_finder constLenHash
        [("d", [⟨"report.pdf", [1, 2, 3], true, true⟩,
                ⟨"report (1).pdf", [1, 2, 3], true, true⟩])]).1
      = [{ members := [⟨"d", ⟨"report.pdf", [1, 2, 3], true, true⟩⟩,
                       ⟨"d", ⟨"report (1).pdf", [1, 2, 3], true, true⟩⟩],
           size := ([1, 2, 3] : Bytes).length, directory := "d" }] :=
  ⟨by decide, claim_c1 constLenHash "d" [1, 2, 3] (by decide)⟩

/-- Claim C2: a directory holding two files whose names normalize to the
same key but whose contents differ — so that their full-content digests
differ, md5 being treated as collision-free — produces no group at all: the
two land in different digest buckets at step 2 of the grouping. -/
theorem claim_c2 (h : Bytes → String) (d n1 n2 : String) (c1 c2 : Bytes)
    (hc1 : 0 < c1.length) (hc2 : 0 < c2.length)
    (hnorm : get_normalized_name n2 = get_normalized_name n1)
    (hdiff : h (fullReadBytes c2) ≠ h (fullReadBytes c1)) :
    (duplicate_file_finder h [(d, [⟨n1, c1, true, true⟩, ⟨n2, c2, true, true⟩])]).1 = [] := by
  apply two_file_groups_diff_hash h d
  · simpa [fileSize] using hc1
  · simpa [fileSize] using hc2
  · simpa [full_hash_of] using hdiff

/-- Witness for C2 with contents of different lengths. -/
theorem claim_c2_witness :
    0 < ([1] : Bytes).length ∧ 0 < ([2, 3] : Bytes).length ∧
    get_normalized_name "x (2).txt" = get_normalized_name "x.txt" ∧
    constLenHash (fullReadBytes [2, 3]) ≠ constLenHash (fullReadBytes [1]) ∧
    (duplicate_file_finder constLenHash
        [("d", [⟨"x.txt", [1], true, true⟩, ⟨"x (2).txt", [2, 3], true, true⟩])]).1 = [] :=
  ⟨by decide, by decide, by decide, by decide,
    claim_c2 constLenHash "d" "x.txt" "x (2).txt" [1] [2, 3]
      (by decide) (by decide) (by decide) (by decide)⟩

